import Mathlib

/-!
Shallow embedding of the greedy hybrid scheduler
(files scheduler.py and schedule_entities.py of the repository).

Modelling conventions:
* Python floats are modelled as rationals; every comparison and branch of the
  source is translated verbatim over the exact arithmetic.
* Python exceptions (IntervalError on constructing an interval whose finish is
  smaller than its start, IndexError on reading the first element of an empty
  timestamp list, ValueError on taking the minimum of an empty sequence) are
  modelled by Option-valued functions returning none.
* Python sets are modelled by sorted duplicate-free lists; every claim settled
  against this model is either insensitive to iteration order or concerns small
  non-negative integer sets, whose CPython iteration order is the sorted one.
* The main loop of window discovery is driven by an explicit fuel parameter;
  running out of fuel yields none, so every some result is one the Python loop
  actually produces.
-/

namespace Scheduler

/-- Interval as in schedule_entities.py; the constructor invariant
finish >= start is carried as a hypothesis where needed. -/
structure Interval where
  start : ℚ
  finish : ℚ
deriving DecidableEq, Repr

def Interval.length (i : Interval) : ℚ := i.finish - i.start

/-- Containment tolerance used by Interval.contains in the source (eps=1e-3). -/
def interval_eps : ℚ := 1 / 1000

/-- Interval.contains of the source:
other.start + eps >= self.start and other.finish - eps <= self.finish. -/
def Interval.contains (self other : Interval) : Bool :=
  decide (self.start ≤ other.start + interval_eps) &&
  decide (other.finish - interval_eps ≤ self.finish)

/-- Interval.intersect of the source; none models the caught IntervalError. -/
def Interval.intersect (self other : Interval) : Option Interval :=
  let s := max self.start other.start
  let f := min self.finish other.finish
  if f < s then none else some (Interval.mk s f)

/-- Interval.have_intersection of the source. -/
def Interval.have_intersection (self other : Interval) (strict : Bool) : Bool :=
  match Interval.intersect self other with
  | none => false
  | some i => !strict || decide (0 < Interval.length i)

/-- Window of schedule_entities.py: an interval plus a partition label. -/
structure Window where
  start : ℚ
  finish : ℚ
  partition : ℕ
deriving DecidableEq, Repr

def Window.toInterval (w : Window) : Interval := Interval.mk w.start w.finish

def Window.length (w : Window) : ℚ := w.finish - w.start

/-- Job of schedule_entities.py: an interval plus partition and duration. -/
structure Job where
  start : ℚ
  finish : ℚ
  partition : ℕ
  duration : ℚ
deriving DecidableEq, Repr

def Job.toInterval (j : Job) : Interval := Interval.mk j.start j.finish

def Job.length (j : Job) : ℚ := j.finish - j.start

/-- default_score of scheduler.py. -/
def default_score (interval : Interval) (job : Job) (_time : ℚ) : ℚ :=
  (Interval.length interval / Job.length job) * (job.duration / Job.length job)

/-- enhanced_score of scheduler.py. -/
def enhanced_score (interval : Interval) (job : Job) (time : ℚ) : ℚ :=
  (Interval.length interval / (job.finish - time)) * (job.duration / (job.finish - time))

/-- get_window_score of scheduler.py. -/
def get_window_score (score : Interval → Job → ℚ → ℚ)
    (window : Window) (job : Job) (time : ℚ) : ℚ :=
  if Interval.contains (Job.toInterval job) (Window.toInterval window) &&
      (window.partition == job.partition) then
    score (Window.toInterval window) job time
  else 0

/-- get_enhanced_window_score of scheduler.py (penalty factor 0.95). -/
def get_enhanced_window_score (score : Interval → Job → ℚ → ℚ)
    (window : Window) (job : Job) (time : ℚ) : ℚ :=
  let aux := Interval.mk time window.finish
  if Interval.contains (Job.toInterval job) (Window.toInterval window) &&
      (window.partition == job.partition) then
    score (Window.toInterval window) job time
  else if Interval.have_intersection (Job.toInterval job) aux true &&
      !(job.partition == window.partition) then
    -(95 / 100) * score (Interval.mk job.start window.finish) job time
  else 0

/-- Model of a Python set of rationals: sorted duplicate-free list. -/
def rat_set (l : List ℚ) : List ℚ :=
  List.insertionSort (fun a b => a ≤ b) l.dedup

/-- Model of a Python set of small non-negative integer labels (their CPython
iteration order is the sorted one). -/
def nat_set (l : List ℕ) : List ℕ :=
  List.insertionSort (fun a b => a ≤ b) l.dedup

/-- get_acceptable_following_windows of scheduler.py. -/
def get_acceptable_following_windows (time : ℚ) (jobs : List Job)
    (min_window_size : ℚ) : List (ℚ × ℚ) :=
  let max_start_time := time + min_window_size
  let starts := (jobs.map (fun j => j.start)).filter
    (fun t => decide (time ≤ t) && decide (t < max_start_time))
  let possible_start_time :=
    if starts.isEmpty || !(starts.contains time)
    then rat_set (time :: starts) else rat_set starts
  possible_start_time.flatMap (fun s =>
    let max_finish_time := s + 2 * min_window_size
    let min_finish_time := s + min_window_size
    let timestamps := jobs.map (fun j => j.start) ++ jobs.map (fun j => j.finish)
    let fins := timestamps.filter
      (fun t => decide (min_finish_time ≤ t) && decide (t < max_finish_time))
    let possible_finish_time :=
      if fins.isEmpty || !(fins.contains min_finish_time)
      then rat_set (min_finish_time :: fins) else rat_set fins
    possible_finish_time.map (fun f => (s, f)))

/-- First loop of distribute_intervals: fill the interval greedily, returning
the cursor after the last allocation that fits. -/
def fill_pass (durations min_sizes : List ℚ) (fin : ℚ) :
    List ℕ → ℚ → ℚ
  | [], start => start
  | p :: rest, start =>
    let len := max (durations.getD p 0) (min_sizes.getD p 0)
    if fin < start + len then start
    else fill_pass durations min_sizes fin rest (start + len)

/-- Second loop of distribute_intervals: expand each allocation by its share of
the slack and record the resulting sub-interval.  The none result models the
IntervalError raised when a computed length is negative. -/
def expand_pass (durations min_sizes max_sizes : List ℚ) (fin : ℚ) :
    List ℕ → ℚ → ℚ → List (Option Interval) → Option (List (Option Interval))
  | [], _, _, result => some result
  | p :: rest, start, total_delta, result =>
    let len0 := max (durations.getD p 0) (min_sizes.getD p 0)
    let delta := max 0 (min total_delta (max_sizes.getD p 0 - len0))
    let len := len0 + delta
    if fin < start + len then some result
    else if start + len < start then none
    else expand_pass durations min_sizes max_sizes fin rest (start + len)
      (total_delta - delta) (result.set p (some (Interval.mk start (start + len))))

/-- distribute_intervals of scheduler.py.  The Python stable sort by descending
estimated duration is modelled by insertion sort with the corresponding total
preorder (stable sorts under a total preorder agree on all inputs). -/
def distribute_intervals (interval : Interval)
    (distribution max_sizes min_sizes : List ℚ) : Option (List (Option Interval)) :=
  let total := distribution.sum
  if total = 0 then some []
  else
    let durations := (max_sizes.zip distribution).map
      (fun p => min p.fst (p.snd / total * Interval.length interval))
    let order := List.insertionSort (fun a b => durations.getD b 0 ≤ durations.getD a 0)
      (List.range durations.length)
    let after_fill := fill_pass durations min_sizes interval.finish order interval.start
    let total_delta := interval.finish - after_fill
    expand_pass durations min_sizes max_sizes interval.finish order interval.start
      total_delta (List.replicate durations.length none)

/-- __recalc_jobs of scheduler.py, parameterised over the configured window
score and the recalc_jobs weight; returns the updated working-copy job list. -/
def recalc_jobs (wscore : Window → Job → ℚ → ℚ) (recalc_weight : ℚ)
    (window : Window) (time : ℚ) (jobs : List Job) : List Job :=
  let scores := jobs.map (fun job => max 0 (wscore window job time))
  let total := scores.sum
  if total < 1 / 1000000 then jobs
  else
    let deltas := scores.map (fun score => score / total * Window.length window)
    (jobs.zip deltas).map (fun p =>
      { p.fst with duration := max (1 / 100) (p.fst.duration - recalc_weight * p.snd) })

/-- __calculate_greedy_func of scheduler.py. -/
def calculate_greedy_func (wscore : Window → Job → ℚ → ℚ)
    (window : Window) (jobs : List Job) (time : ℚ) : ℚ :=
  (jobs.map (fun j => wscore window j time)).sum

/-- Body of the double loop of __find_best_window: keep the incumbent unless
the new window scores strictly higher (first maximum wins ties). -/
def find_best_step (wscore : Window → Job → ℚ → ℚ) (jobs : List Job) (time : ℚ)
    (best : Option (ℚ × Window)) (w : Window) : Option (ℚ × Window) :=
  let sc := calculate_greedy_func wscore w jobs time
  match best with
  | none => some (sc, w)
  | some b => if b.fst < sc then some (sc, w) else some b

/-- __find_best_window of scheduler.py: first maximum over the candidate
intervals crossed with the partition labels. -/
def find_best_window (wscore : Window → Job → ℚ → ℚ) (intervals : List (ℚ × ℚ))
    (partitions : List ℕ) (jobs : List Job) (time : ℚ) : Option Window :=
  ((intervals.flatMap (fun c => partitions.map (fun p => Window.mk c.fst c.snd p))).foldl
    (find_best_step wscore jobs time) none).map (fun b => b.snd)

/-- __split_subinterval_by_windows of scheduler.py, parameterised over the
configured job score. -/
def split_subinterval_by_windows (score : Interval → Job → ℚ → ℚ)
    (min_window_size : ℚ) (partitions : List ℕ) (interval : Interval)
    (jobs : List Job) : Option (List Window) :=
  let pjobs := partitions.map (fun p =>
    jobs.filter (fun j =>
      Interval.contains (Job.toInterval j) interval && (j.partition == p)))
  let durations := pjobs.map (fun l => (l.map (fun j => j.duration)).sum)
  let weights := pjobs.map (fun l => (l.map (fun j => score interval j interval.start)).sum)
  let min_sizes := partitions.map (fun _ => min_window_size)
  (distribute_intervals interval weights durations min_sizes).map (fun ivs =>
    (ivs.zip partitions).filterMap (fun q =>
      match q.fst with
      | some i => if 0 < Interval.length i then some (Window.mk i.start i.finish q.snd)
                  else none
      | none => none))

/-- min(filter(lambda t: t > time, timestamps)) of the fallback branch of
__find_windows; none models the ValueError on an empty sequence. -/
def min_greater (time : ℚ) (timestamps : List ℚ) : Option ℚ :=
  match timestamps.filter (fun t => decide (time < t)) with
  | [] => none
  | t :: rest => some (rest.foldl min t)

/-- End of the sub-interval handed to the distributor in the fallback branch:
max(time + min_window_size, min(filter(lambda t: t > time, timestamps))). -/
def subinterval_finish (min_window_size time : ℚ) (timestamps : List ℚ) :
    Option ℚ :=
  (min_greater time timestamps).map (fun nt => max (time + min_window_size) nt)

/-- Cursor update of the fallback branch of __find_windows: the running
maximum of the emitted finishes (new_time), or the sub-interval end when no
window was emitted. -/
def next_cursor (time fin : ℚ) (batch : List Window) : ℚ :=
  let new_time := batch.foldl (fun a w => max a w.finish) time
  if new_time = time then fin else new_time

/-- The while loop of __find_windows, driven by fuel.  Returns the emitted
windows together with the final state of the working-copy job list.  The none
results model, in order: fuel exhaustion, a failure of __find_best_window
(impossible when candidates and partitions are non-empty), the ValueError of
min over an empty sequence, and an IntervalError inside the distributor. -/
def find_windows_aux (score : Interval → Job → ℚ → ℚ)
    (wscore : Window → Job → ℚ → ℚ) (recalc_weight min_window_size : ℚ)
    (partitions : List ℕ) (timestamps : List ℚ) (tlast : ℚ) :
    ℕ → List Job → ℚ → Option (List Window × List Job)
  | 0, _, _ => none
  | Nat.succ fuel, jobs, time =>
    if time + min_window_size ≤ tlast then
      let cands := get_acceptable_following_windows time jobs min_window_size
      if 1 < cands.length then
        match find_best_window wscore cands partitions jobs time with
        | none => none
        | some w =>
          let jobs1 := recalc_jobs wscore recalc_weight w time jobs
          match find_windows_aux score wscore recalc_weight min_window_size
              partitions timestamps tlast fuel jobs1 w.finish with
          | none => none
          | some r => some (w :: r.fst, r.snd)
      else
        match subinterval_finish min_window_size time timestamps with
        | none => none
        | some fin =>
          match split_subinterval_by_windows score min_window_size partitions
              (Interval.mk time fin) jobs with
          | none => none
          | some batch =>
            let jobs1 := batch.foldl
              (fun js w => recalc_jobs wscore recalc_weight w time js) jobs
            match find_windows_aux score wscore recalc_weight min_window_size
                partitions timestamps tlast fuel jobs1 (next_cursor time fin batch) with
            | none => none
            | some r => some (batch ++ r.fst, r.snd)
    else some ([], jobs)

/-- __find_windows of scheduler.py: timestamps are the sorted set of job
endpoints, the cursor starts at the first timestamp; none models the
IndexError of timestamps[0] on an empty job list. -/
def find_windows (score : Interval → Job → ℚ → ℚ)
    (wscore : Window → Job → ℚ → ℚ) (recalc_weight min_window_size : ℚ)
    (fuel : ℕ) (jobs : List Job) : Option (List Window × List Job) :=
  let partitions := nat_set (jobs.map (fun j => j.partition))
  let timestamps := rat_set (jobs.map (fun j => j.start) ++ jobs.map (fun j => j.finish))
  match timestamps with
  | [] => none
  | t0 :: rest =>
    find_windows_aux score wscore recalc_weight min_window_size partitions
      (t0 :: rest) ((t0 :: rest).getLastD 0) fuel jobs t0

/-- The flow network of __build_network: Source→Job edges with the original
durations as capacities, Window→Sink edges with the window lengths as
capacities, capacity-free Job→Window edges, and the accumulated
total_duration. -/
structure FlowNetwork where
  source_edges : List (ℕ × ℚ)
  sink_edges : List (ℕ × ℚ)
  job_window_edges : List (ℕ × ℕ)
  total_duration : ℚ
deriving DecidableEq, Repr

/-- __build_network of scheduler.py, over the initial (un-recalculated) jobs
and the discovered windows. -/
def build_network (initial_jobs : List Job) (windows : List Window) : FlowNetwork :=
  { source_edges := initial_jobs.enum.map (fun p => (p.fst, p.snd.duration))
    sink_edges := windows.enum.map (fun p => (p.fst, Window.length p.snd))
    job_window_edges := initial_jobs.enum.flatMap (fun pj =>
      windows.enum.filterMap (fun pw =>
        if Interval.contains (Job.toInterval pj.snd) (Window.toInterval pw.snd) &&
            (pj.snd.partition == pw.snd.partition)
        then some (pj.fst, pw.fst) else none))
    total_duration := (initial_jobs.map (fun j => j.duration)).sum }

/-- Result of a successful HybridSchedule.build: the caller's job list, the
working copy after discovery, the windows and the network. -/
structure HybridScheduleResult where
  initial_jobs : List Job
  jobs : List Job
  windows : List Window
  network : FlowNetwork
deriving DecidableEq, Repr

/-- HybridSchedule.build of scheduler.py (the max-flow solver itself is the
external networkx preflow_push and is modelled by the IsFlow predicate). -/
def build (score : Interval → Job → ℚ → ℚ) (wscore : Window → Job → ℚ → ℚ)
    (recalc_weight min_window_size : ℚ) (fuel : ℕ) (jobs : List Job) :
    Option HybridScheduleResult :=
  match find_windows score wscore recalc_weight min_window_size fuel jobs with
  | none => none
  | some r => some (HybridScheduleResult.mk jobs r.snd r.fst (build_network jobs r.fst))

/-- HybridSchedule.rate of scheduler.py, as a function of the solved flow
value and of total_duration. -/
def rate (flow_value total_duration : ℚ) : ℚ :=
  1 + (flow_value - total_duration) / total_duration

/-- HybridSchedule.exists of scheduler.py. -/
def schedule_exists (flow_value total_duration : ℚ) : Bool :=
  decide (99 / 100 ≤ rate flow_value total_duration)

/-- A feasible flow in the network of __build_network: non-negative, supported
on the Job→Window edges, respecting the Source→Job capacities (the original
durations) and the Window→Sink capacities (the window lengths).  The value
computed by the external preflow_push solver is the value of such a flow. -/
def IsFlow (jobs : List Job) (windows : List Window) (f : ℕ → ℕ → ℚ) : Prop :=
  (∀ i j, 0 ≤ f i j) ∧
  (∀ i j, (i, j) ∉ (build_network jobs windows).job_window_edges → f i j = 0) ∧
  (∀ i, ∀ h : i < jobs.length,
    (∑ j ∈ Finset.range windows.length, f i j) ≤ (jobs.get (Fin.mk i h)).duration) ∧
  (∀ j, ∀ h : j < windows.length,
    (∑ i ∈ Finset.range jobs.length, f i j) ≤ Window.length (windows.get (Fin.mk j h)))

/-- Value of a flow: everything leaving the source. -/
def flow_value (jobs : List Job) (windows : List Window) (f : ℕ → ℕ → ℚ) : ℚ :=
  ∑ i ∈ Finset.range jobs.length, ∑ j ∈ Finset.range windows.length, f i j

/-- The engine's window score under the default configuration of
HybridSchedule.__init__ (score=enhanced, window_score=enhanced). -/
def hybrid_window_score : Window → Job → ℚ → ℚ :=
  get_enhanced_window_score enhanced_score

/-- The ten-job fixture of the repository's unit tests
(FindWindowsTests.setUp). -/
def fixture_jobs : List Job :=
  [Job.mk 0 10 0 5, Job.mk 5 15 0 5, Job.mk 10 20 1 5, Job.mk 20 23 2 2,
   Job.mk 25 30 2 4, Job.mk 40 50 1 2, Job.mk 40 50 2 2, Job.mk 40 60 1 5,
   Job.mk 80 100 0 10, Job.mk 90 100 0 8]

/-- Two jobs over the same directive interval and two partitions; with
min_window_size 1 the discovery loop takes the fallback branch and emits its
first batch out of time order. -/
def c3_jobs : List Job := [Job.mk 0 10 0 3, Job.mk 0 10 1 6]

/-- Two jobs whose earliest timestamp above the initial cursor (5) is closer
than min_window_size 10, so the fallback sub-interval ends at time + 10,
not at that timestamp. -/
def c4_jobs : List Job := [Job.mk 0 5 0 2, Job.mk 0 30 1 10]

/-! ## Basic facts about the distributor -/

/-- Total length of the assigned sub-intervals of a distributor result. -/
def sum_lengths : List (Option Interval) → ℚ
  | [] => 0
  | none :: t => sum_lengths t
  | some a :: t => (a.finish - a.start) + sum_lengths t

/-- Interiors-disjointness of two intervals (one ends before the other starts). -/
def ivl_disjoint (a b : Interval) : Prop :=
  a.finish ≤ b.start ∨ b.finish ≤ a.start

/-- Interiors-disjointness of two windows. -/
def win_disjoint (a b : Window) : Prop :=
  a.finish ≤ b.start ∨ b.finish ≤ a.start

/-- Invariant of the expand pass: all assigned sub-intervals lie between lo
and hi, each is at least as long as its min size and of non-negative length,
they are pairwise disjoint, and their total length is at most hi - lo. -/
def result_ok (lo hi : ℚ) (min_sizes : List ℚ) (res : List (Option Interval)) : Prop :=
  (∀ (p : ℕ) (a : Interval), res[p]? = some (some a) →
    lo ≤ a.start ∧ a.finish ≤ hi ∧ min_sizes.getD p 0 ≤ a.finish - a.start ∧
      0 ≤ a.finish - a.start) ∧
  (∀ (p q : ℕ) (a b : Interval), p ≠ q → res[p]? = some (some a) →
    res[q]? = some (some b) → ivl_disjoint a b) ∧
  sum_lengths res ≤ hi - lo

theorem result_ok_mono {lo hi hi2 : ℚ} {min_sizes : List ℚ}
    {res : List (Option Interval)} (h : result_ok lo hi min_sizes res)
    (hle : hi ≤ hi2) : result_ok lo hi2 min_sizes res := by
  obtain ⟨h1, h2, h3⟩ := h
  refine ⟨fun p a hp => ?_, h2, by linarith⟩
  obtain ⟨u1, u2, u3, u4⟩ := h1 p a hp
  exact ⟨u1, le_trans u2 hle, u3, u4⟩

theorem sum_lengths_replicate (n : ℕ) :
    sum_lengths (List.replicate n none) = 0 := by
  induction n with
  | zero => rfl
  | succ m ih => simpa [List.replicate_succ, sum_lengths] using ih

theorem sum_lengths_set_le (a : Interval) (ha : 0 ≤ a.finish - a.start) :
    ∀ (l : List (Option Interval)) (p : ℕ),
    (∀ (q : ℕ) (b : Interval), l[q]? = some (some b) → 0 ≤ b.finish - b.start) →
    sum_lengths (l.set p (some a)) ≤ sum_lengths l + (a.finish - a.start)
  | [], p, _ => by simp [sum_lengths]; linarith
  | x :: t, 0, hl => by
    have hx : sum_lengths t ≤ sum_lengths (x :: t) := by
      match x with
      | none => simp [sum_lengths]
      | some b =>
        have := hl 0 b (by simp)
        simp [sum_lengths]; linarith
    simp only [List.set_cons_zero, sum_lengths]
    linarith
  | x :: t, Nat.succ p, hl => by
    have ht := sum_lengths_set_le a ha t p (fun q b hq => hl (q + 1) b (by simpa using hq))
    match x with
    | none => simpa [sum_lengths] using ht
    | some b => simp only [List.set_cons_succ, sum_lengths]; linarith

/-- Invariant of the expand pass of distribute_intervals: starting from a
result that satisfies result_ok up to the cursor, every successful run yields
a result satisfying result_ok up to some position between the cursor and the
interval end. -/
theorem expand_pass_ok (durations min_sizes max_sizes : List ℚ) (fin lo : ℚ) :
    ∀ (order : List ℕ) (start total_delta : ℚ)
      (result res : List (Option Interval)),
    expand_pass durations min_sizes max_sizes fin order start total_delta result = some res →
    lo ≤ start → start ≤ fin →
    result_ok lo start min_sizes result →
    ∃ hi, start ≤ hi ∧ hi ≤ fin ∧ result_ok lo hi min_sizes res
  | [], start, total_delta, result, res, h, _hlo, hfin, hok => by
    simp only [expand_pass] at h
    injection h with h2
    exact ⟨start, le_refl _, hfin, h2 ▸ hok⟩
  | p :: rest, start, total_delta, result, res, h, hlo, hfin, hok => by
    simp only [expand_pass] at h
    set len0 := max (durations.getD p 0) (min_sizes.getD p 0) with hlen0
    set delta := max 0 (min total_delta (max_sizes.getD p 0 - len0)) with hdelta
    set len := len0 + delta with hlen
    by_cases h1 : fin < start + len
    · rw [if_pos h1] at h
      injection h with h2
      exact ⟨start, le_refl _, hfin, h2 ▸ hok⟩
    · rw [if_neg h1] at h
      by_cases h2 : start + len < start
      · rw [if_pos h2] at h; cases h
      · rw [if_neg h2] at h
        have hlen_nonneg : 0 ≤ len := by
          have := not_lt.mp h2; linarith
        have hdelta_nonneg : 0 ≤ delta := le_max_left 0 _
        have hmin_le : min_sizes.getD p 0 ≤ len := by
          have := le_max_right (durations.getD p 0) (min_sizes.getD p 0)
          rw [hlen]; linarith
        have hfits : start + len ≤ fin := not_lt.mp h1
        obtain ⟨o1, o2, o3⟩ := hok
        have hok2 : result_ok lo (start + len) min_sizes
            (result.set p (some (Interval.mk start (start + len)))) := by
          refine ⟨?_, ?_, ?_⟩
          · intro q a hq
            rw [List.getElem?_set] at hq
            by_cases hpq : p = q
            · rw [if_pos hpq] at hq
              by_cases hplen : p < result.length
              · rw [if_pos hplen] at hq
                simp only [Option.some.injEq] at hq
                subst hq
                refine ⟨hlo, le_refl _, ?_, ?_⟩
                · subst hpq
                  have harith : start + len - start = len := by ring
                  simp only []
                  rw [harith]
                  exact hmin_le
                · have harith : start + len - start = len := by ring
                  simp only []
                  rw [harith]
                  exact hlen_nonneg
              · rw [if_neg hplen] at hq; cases hq
            · rw [if_neg hpq] at hq
              obtain ⟨u1, u2, u3, u4⟩ := o1 q a hq
              exact ⟨u1, by linarith, u3, u4⟩
          · intro q r a b hqr hq hr
            rw [List.getElem?_set] at hq hr
            by_cases hpq : p = q <;> by_cases hpr : p = r
            · exact absurd (hpq ▸ hpr ▸ rfl) hqr
            · rw [if_pos hpq] at hq
              rw [if_neg hpr] at hr
              by_cases hplen : p < result.length
              · rw [if_pos hplen] at hq
                simp only [Option.some.injEq] at hq
                subst hq
                exact Or.inr (o1 r b hr).2.1
              · rw [if_neg hplen] at hq; cases hq
            · rw [if_neg hpq] at hq
              rw [if_pos hpr] at hr
              by_cases hplen : p < result.length
              · rw [if_pos hplen] at hr
                simp only [Option.some.injEq] at hr
                subst hr
                exact Or.inl (o1 q a hq).2.1
              · rw [if_neg hplen] at hr; cases hr
            · rw [if_neg hpq] at hq
              rw [if_neg hpr] at hr
              exact o2 q r a b hqr hq hr
          · have hstep := sum_lengths_set_le (Interval.mk start (start + len))
              (by simp only []; linarith) result p
              (fun q b hb => (o1 q b hb).2.2.2)
            have harith : start + len - start = len := by ring
            rw [harith] at hstep
            linarith
        obtain ⟨hi, hh1, hh2, hh3⟩ := expand_pass_ok durations min_sizes max_sizes fin lo
          rest (start + len) (total_delta - delta) _ res h (by linarith) hfits hok2
        exact ⟨hi, by linarith, hh2, hh3⟩

theorem replicate_ok (lo : ℚ) (mins : List ℚ) (n : ℕ) :
    result_ok lo lo mins (List.replicate n none) := by
  refine ⟨?_, ?_, ?_⟩
  · intro p a hp
    rw [List.getElem?_replicate] at hp
    split at hp <;> simp at hp
  · intro p q a b _ hp
    rw [List.getElem?_replicate] at hp
    split at hp <;> simp at hp
  · rw [sum_lengths_replicate]; linarith

/-- Every successful run of distribute_intervals satisfies the expand-pass
invariant over the whole input interval. -/
theorem distribute_intervals_spec (interval : Interval)
    (distribution max_sizes min_sizes : List ℚ) (res : List (Option Interval))
    (hres : distribute_intervals interval distribution max_sizes min_sizes = some res)
    (hvalid : interval.start ≤ interval.finish) :
    result_ok interval.start interval.finish min_sizes res := by
  simp only [distribute_intervals] at hres
  by_cases htot : distribution.sum = 0
  · rw [if_pos htot] at hres
    injection hres with h2
    subst h2
    refine ⟨?_, ?_, ?_⟩
    · intro p a hp; simp at hp
    · intro p q a b _ hp; simp at hp
    · simp only [sum_lengths]; linarith
  · rw [if_neg htot] at hres
    obtain ⟨hi, _hh1, hh2, hok⟩ := expand_pass_ok _ _ _ interval.finish interval.start _
      interval.start _ _ res hres (le_refl _) hvalid (replicate_ok _ _ _)
    exact result_ok_mono hok hh2

/-- C6: for every interval, weight vector, max_sizes and min_sizes of equal
length, the sub-intervals returned by distribute_intervals are pairwise
disjoint and contained in the input interval, their total length never exceeds
the input interval's length, and every returned (non-None) sub-interval has
length at least that partition's min_size. -/
theorem claim_c6_distribute_intervals_guarantees (interval : Interval)
    (distribution max_sizes min_sizes : List ℚ)
    (res : List (Option Interval))
    (_hlen1 : max_sizes.length = distribution.length)
    (_hlen2 : min_sizes.length = distribution.length)
    (hvalid : interval.start ≤ interval.finish)
    (hres : distribute_intervals interval distribution max_sizes min_sizes = some res) :
    (∀ (p q : ℕ) (a b : Interval), p ≠ q → res[p]? = some (some a) →
      res[q]? = some (some b) → ivl_disjoint a b) ∧
    (∀ (p : ℕ) (a : Interval), res[p]? = some (some a) →
      interval.start ≤ a.start ∧ a.finish ≤ interval.finish) ∧
    sum_lengths res ≤ Interval.length interval ∧
    (∀ (p : ℕ) (a : Interval), res[p]? = some (some a) →
      min_sizes.getD p 0 ≤ a.finish - a.start) := by
  obtain ⟨o1, o2, o3⟩ :=
    distribute_intervals_spec interval distribution max_sizes min_sizes res hres hvalid
  refine ⟨o2, fun p a hp => ⟨(o1 p a hp).1, (o1 p a hp).2.1⟩, ?_,
    fun p a hp => (o1 p a hp).2.2.1⟩
  unfold Interval.length
  linarith

/-- Witness for C6 at the concrete input of the repository's unit test
DistributeIntervalsTest.test_common. -/
theorem claim_c6_witness :
    sum_lengths [none, some (Interval.mk (-1) 4), some (Interval.mk (-7) (-1)),
      none, some (Interval.mk 4 7)] ≤ Interval.length (Interval.mk (-7) 7) :=
  (claim_c6_distribute_intervals_guarantees (Interval.mk (-7) 7) [3/2, 4, 5, 3/2, 2]
    [10, 8, 7, 5, 4] [5, 5, 4, 4, 3] _ (by rfl) (by rfl) (by norm_num)
    (by with_unfolding_all decide)).2.2.1

/-- C7: on interval (-7,7), max_sizes [10,8,7,5,4], min_sizes [5,5,4,4,3] and
weights [1.5,4.0,5.0,1.5,2.0], distribute_intervals returns partition 2 as
(-7,-1), partition 1 as (-1,4), partition 4 as (4,7), and None for
partitions 0 and 3. -/
theorem claim_c7_distribute_intervals_concrete :
    distribute_intervals (Interval.mk (-7) 7)
      [3/2, 4, 5, 3/2, 2] [10, 8, 7, 5, 4] [5, 5, 4, 4, 3] =
    some [none, some (Interval.mk (-1) 4), some (Interval.mk (-7) (-1)),
          none, some (Interval.mk 4 7)] := by
  with_unfolding_all decide

/-- Every successful run of __split_subinterval_by_windows on a valid interval
emits windows of positive length contained in the interval, pairwise
interiors-disjoint. -/
theorem split_subinterval_spec (score : Interval → Job → ℚ → ℚ)
    (d : ℚ) (parts : List ℕ) (interval : Interval) (jobs : List Job)
    (batch : List Window)
    (h : split_subinterval_by_windows score d parts interval jobs = some batch)
    (hvalid : interval.start ≤ interval.finish) :
    (∀ w ∈ batch, interval.start ≤ w.start ∧ w.finish ≤ interval.finish ∧
      0 < Window.length w) ∧
    List.Pairwise win_disjoint batch := by
  simp only [split_subinterval_by_windows] at h
  rw [Option.map_eq_some'] at h
  obtain ⟨ivs, hivs, hbatch⟩ := h
  obtain ⟨o1, o2, _o3⟩ := distribute_intervals_spec _ _ _ _ _ hivs hvalid
  constructor
  · intro w hw
    rw [← hbatch, List.mem_filterMap] at hw
    obtain ⟨q, hqmem, hq⟩ := hw
    obtain ⟨oi, pp⟩ := q
    rw [List.mem_iff_getElem?] at hqmem
    obtain ⟨k, hk⟩ := hqmem
    rw [List.getElem?_zip_eq_some] at hk
    obtain ⟨hk1, _hk2⟩ := hk
    match oi, hq, hk1 with
    | none, hq, hk1 => exact absurd hq (by simp)
    | some i, hq, hk1 =>
      dsimp only [] at hq
      split at hq
      · injection hq with hq
        subst hq
        obtain ⟨u1, u2, _, _⟩ := o1 k i hk1
        refine ⟨u1, u2, ?_⟩
        unfold Window.length
        unfold Interval.length at *
        assumption
      · cases hq
  · rw [← hbatch, List.pairwise_filterMap, List.pairwise_iff_getElem]
    intro i j hi hj hij
    intro w hw w' hw'
    rw [Option.mem_def] at hw hw'
    have hi1 : i < ivs.length := by
      rw [List.length_zip] at hi; exact lt_of_lt_of_le hi (min_le_left _ _)
    have hj1 : j < ivs.length := by
      rw [List.length_zip] at hj; exact lt_of_lt_of_le hj (min_le_left _ _)
    rw [List.getElem_zip] at hw hw'
    match hvi : ivs[i], hw with
    | none, hw => exact absurd hw (by simp)
    | some a, hw =>
      dsimp only [] at hw
      split at hw
      · injection hw with hw
        match hvj : ivs[j], hw' with
        | none, hw' => exact absurd hw' (by simp)
        | some b, hw' =>
          dsimp only [] at hw'
          split at hw'
          · injection hw' with hw'
            have hpi : ivs[i]? = some (some a) := by
              rw [List.getElem?_eq_getElem hi1, hvi]
            have hpj : ivs[j]? = some (some b) := by
              rw [List.getElem?_eq_getElem hj1, hvj]
            have hdisj := o2 i j a b (Nat.ne_of_lt hij) hpi hpj
            rw [← hw, ← hw']
            unfold win_disjoint
            unfold ivl_disjoint at hdisj
            exact hdisj
          · cases hw'
      · cases hw

/-! ## Facts about candidate generation, best-window selection and the cursor -/

theorem mem_rat_set {a : ℚ} {l : List ℚ} : a ∈ rat_set l ↔ a ∈ l := by
  unfold rat_set
  rw [List.mem_insertionSort]
  exact List.mem_dedup

/-- Every candidate of get_acceptable_following_windows starts no earlier than
the cursor and is at least min_window_size long. -/
theorem get_acceptable_mem (time : ℚ) (jobs : List Job) (d : ℚ) (s f : ℚ)
    (h : (s, f) ∈ get_acceptable_following_windows time jobs d) :
    time ≤ s ∧ s + d ≤ f := by
  simp only [get_acceptable_following_windows] at h
  rw [List.mem_flatMap] at h
  obtain ⟨s', hs', hmem⟩ := h
  rw [List.mem_map] at hmem
  obtain ⟨f', hf', heq⟩ := hmem
  injection heq with e1 e2
  subst e1
  subst e2
  have hstart : time ≤ s' := by
    have hmem2 : s' ∈ time :: (jobs.map (fun j => j.start)).filter
        (fun t => decide (time ≤ t) && decide (t < time + d)) := by
      split at hs'
      · exact (mem_rat_set).mp hs'
      · exact List.mem_cons_of_mem _ ((mem_rat_set).mp hs')
    rcases List.mem_cons.mp hmem2 with h1 | h2
    · exact le_of_eq h1.symm
    · have := (List.mem_filter.mp h2).2
      rw [Bool.and_eq_true, decide_eq_true_eq, decide_eq_true_eq] at this
      exact this.1
  have hfin : s' + d ≤ f' := by
    have hmem2 : f' ∈ (s' + d) ::
        ((jobs.map (fun j => j.start) ++ jobs.map (fun j => j.finish)).filter
          (fun t => decide (s' + d ≤ t) && decide (t < s' + 2 * d))) := by
      split at hf'
      · exact (mem_rat_set).mp hf'
      · exact List.mem_cons_of_mem _ ((mem_rat_set).mp hf')
    rcases List.mem_cons.mp hmem2 with h1 | h2
    · exact le_of_eq h1.symm
    · have := (List.mem_filter.mp h2).2
      rw [Bool.and_eq_true, decide_eq_true_eq, decide_eq_true_eq] at this
      exact this.1
  exact ⟨hstart, hfin⟩

theorem foldl_max_init : ∀ (l : List Window) (init : ℚ),
    init ≤ l.foldl (fun a x => max a x.finish) init
  | [], _ => le_refl _
  | w :: t, init => le_trans (le_max_left init w.finish) (foldl_max_init t _)

theorem foldl_max_mem : ∀ (l : List Window) (init : ℚ) (w : Window), w ∈ l →
    w.finish ≤ l.foldl (fun a x => max a x.finish) init
  | [], _, _, h => absurd h (List.not_mem_nil _)
  | x :: t, init, w, h => by
    rcases List.mem_cons.mp h with h1 | h2
    · subst h1
      exact le_trans (le_max_right init w.finish) (foldl_max_init t _)
    · exact foldl_max_mem t _ w h2

theorem foldl_max_cases : ∀ (l : List Window) (init : ℚ),
    l.foldl (fun a x => max a x.finish) init = init ∨
    ∃ w ∈ l, l.foldl (fun a x => max a x.finish) init = w.finish
  | [], _ => Or.inl rfl
  | x :: t, init => by
    rcases foldl_max_cases t (max init x.finish) with h | ⟨w, hw, he⟩
    · rcases max_choice init x.finish with hm | hm
      · left
        simp only [List.foldl_cons]
        exact h.trans hm
      · right
        refine ⟨x, List.mem_cons_self x t, ?_⟩
        simp only [List.foldl_cons]
        exact h.trans hm
    · exact Or.inr ⟨w, List.mem_cons_of_mem x hw, he⟩

/-- The cursor never moves backwards in the fallback branch. -/
theorem next_cursor_ge (time fin : ℚ) (batch : List Window) (hfin : time ≤ fin) :
    time ≤ next_cursor time fin batch := by
  simp only [next_cursor]
  split
  · exact hfin
  · exact foldl_max_init batch time

/-- Every emitted finish is below the updated cursor in the fallback branch. -/
theorem next_cursor_finish_le (time fin : ℚ) (batch : List Window)
    (hb : ∀ w ∈ batch, w.finish ≤ fin) (w : Window) (hw : w ∈ batch) :
    w.finish ≤ next_cursor time fin batch := by
  simp only [next_cursor]
  split
  · exact hb w hw
  · exact foldl_max_mem batch time w hw

/-- The accumulating maximum of __find_best_window only ever holds a window
coming from the candidate list (or from the initial accumulator). -/
theorem find_best_fold_mem (wscore : Window → Job → ℚ → ℚ) (jobs : List Job)
    (time : ℚ) :
    ∀ (l : List Window) (acc : Option (ℚ × Window)) (b : ℚ × Window),
    l.foldl (find_best_step wscore jobs time) acc = some b →
    (∃ a, acc = some a ∧ b.snd = a.snd) ∨ b.snd ∈ l
  | [], _, b, h => Or.inl ⟨b, h, rfl⟩
  | x :: t, acc, b, h => by
    rcases find_best_fold_mem wscore jobs time t
        (find_best_step wscore jobs time acc x) b h with ⟨a, ha, hb⟩ | hmem
    · rcases acc with _ | bb
      · simp only [find_best_step] at ha
        injection ha with ha
        right
        rw [hb, ← ha]
        exact List.mem_cons_self x t
      · simp only [find_best_step] at ha
        split at ha
        · injection ha with ha
          right
          rw [hb, ← ha]
          exact List.mem_cons_self x t
        · injection ha with ha
          left
          exact ⟨bb, rfl, by rw [hb, ← ha]⟩
    · exact Or.inr (List.mem_cons_of_mem x hmem)

/-- A window returned by __find_best_window has the bounds of one of the
candidate intervals. -/
theorem find_best_window_mem (wscore : Window → Job → ℚ → ℚ)
    (intervals : List (ℚ × ℚ)) (parts : List ℕ) (jobs : List Job) (time : ℚ)
    (w : Window) (h : find_best_window wscore intervals parts jobs time = some w) :
    ∃ c ∈ intervals, w.start = c.fst ∧ w.finish = c.snd := by
  unfold find_best_window at h
  rw [Option.map_eq_some'] at h
  obtain ⟨b, hb, hw⟩ := h
  rcases find_best_fold_mem wscore jobs time _ none b hb with ⟨a, ha, _⟩ | hmem
  · cases ha
  · rw [List.mem_flatMap] at hmem
    obtain ⟨c, hc, hmem2⟩ := hmem
    rw [List.mem_map] at hmem2
    obtain ⟨p, _, heq⟩ := hmem2
    refine ⟨c, hc, ?_, ?_⟩
    · rw [← hw, ← heq]
    · rw [← hw, ← heq]

theorem subinterval_finish_char {d time fin : ℚ} {ts : List ℚ}
    (hfin : subinterval_finish d time ts = some fin) :
    ∃ nt, min_greater time ts = some nt ∧ fin = max (time + d) nt := by
  unfold subinterval_finish at hfin
  rw [Option.map_eq_some'] at hfin
  obtain ⟨nt, h1, h2⟩ := hfin
  exact ⟨nt, h1, h2.symm⟩

/-- Invariant of the __find_windows loop: with a non-negative min window size,
every window the loop emits starts at or after the cursor, and the emitted
windows are pairwise interiors-disjoint (though not necessarily emitted in
time order). -/
theorem find_windows_aux_spec (score : Interval → Job → ℚ → ℚ)
    (wscore : Window → Job → ℚ → ℚ) (recalc_weight d : ℚ) (parts : List ℕ)
    (ts : List ℚ) (tlast : ℚ) (hd : 0 ≤ d) :
    ∀ (fuel : ℕ) (jobs : List Job) (time : ℚ) (ws : List Window) (jf : List Job),
    find_windows_aux score wscore recalc_weight d parts ts tlast fuel jobs time =
      some (ws, jf) →
    (∀ w ∈ ws, time ≤ w.start) ∧ List.Pairwise win_disjoint ws
  | 0, jobs, time, ws, jf, h => by
    simp only [find_windows_aux] at h
    cases h
  | Nat.succ fuel, jobs, time, ws, jf, h => by
    simp only [find_windows_aux] at h
    by_cases hcond : time + d ≤ tlast
    case neg =>
      rw [if_neg hcond] at h
      injection h with h
      injection h with h1 _h2
      subst h1
      exact ⟨fun w hw => absurd hw (List.not_mem_nil w), List.Pairwise.nil⟩
    case pos =>
      rw [if_pos hcond] at h
      by_cases hlen : 1 < (get_acceptable_following_windows time jobs d).length
      · rw [if_pos hlen] at h
        split at h
        · cases h
        · rename_i w hbw
          split at h
          · cases h
          · rename_i r hrec
            obtain ⟨ws2, jf2⟩ := r
            injection h with h
            injection h with h1 _h2
            subst h1
            obtain ⟨ih1, ih2⟩ := find_windows_aux_spec score wscore recalc_weight d
              parts ts tlast hd fuel _ _ _ _ hrec
            obtain ⟨c, hc, hcs, hcf⟩ := find_best_window_mem wscore _ parts jobs time w hbw
            obtain ⟨hts, htf⟩ := get_acceptable_mem time jobs d c.fst c.snd
              (by simpa using hc)
            have hws : time ≤ w.start := by rw [hcs]; exact hts
            have hwf : w.start + d ≤ w.finish := by rw [hcs, hcf]; exact htf
            constructor
            · intro x hx
              rcases List.mem_cons.mp hx with h1 | h2
              · subst h1; exact hws
              · have := ih1 x h2
                linarith
            · rw [List.pairwise_cons]
              exact ⟨fun x hx => Or.inl (ih1 x hx), ih2⟩
      · rw [if_neg hlen] at h
        split at h
        · cases h
        · rename_i fin hfin
          split at h
          · cases h
          · rename_i batch hsplit
            split at h
            · cases h
            · rename_i r hrec
              obtain ⟨ws2, jf2⟩ := r
              injection h with h
              injection h with h1 _h2
              subst h1
              obtain ⟨nt, _hnt, hfeq⟩ := subinterval_finish_char hfin
              have htfin : time ≤ fin := by
                have := le_max_left (time + d) nt
                rw [hfeq]; linarith
              obtain ⟨hb1, hb2⟩ := split_subinterval_spec score d parts
                (Interval.mk time fin) jobs batch hsplit htfin
              obtain ⟨ih1, ih2⟩ := find_windows_aux_spec score wscore recalc_weight d
                parts ts tlast hd fuel _ _ _ _ hrec
              have hnc_ge : time ≤ next_cursor time fin batch :=
                next_cursor_ge time fin batch htfin
              have hnc_le : ∀ w ∈ batch, w.finish ≤ next_cursor time fin batch :=
                next_cursor_finish_le time fin batch (fun w hw => (hb1 w hw).2.1)
              constructor
              · intro x hx
                rcases List.mem_append.mp hx with h1 | h2
                · exact (hb1 x h1).1
                · have := ih1 x h2
                  linarith
              · rw [List.pairwise_append]
                refine ⟨hb2, ih2, fun a ha b hbmem => Or.inl ?_⟩
                have h1 := hnc_le a ha
                have h2 := ih1 b hbmem
                linarith

/-- C3 (amended): the windows emitted by the discovery loop are pairwise
non-overlapping (interiors disjoint) and all start at or after the initial
cursor (the first timestamp); within a fallback batch, however, windows are
emitted in partition-index order, which need not be time order, and the cursor
advances to the maximum emitted finish, not to the finish of the last emitted
window. -/
theorem claim_c3_find_windows_disjoint (score : Interval → Job → ℚ → ℚ)
    (wscore : Window → Job → ℚ → ℚ) (recalc_weight d : ℚ) (fuel : ℕ)
    (jobs : List Job) (ws : List Window) (jf : List Job)
    (hd : 0 ≤ d)
    (h : find_windows score wscore recalc_weight d fuel jobs = some (ws, jf)) :
    List.Pairwise win_disjoint ws ∧
    (∀ t0 : ℚ,
      (rat_set (jobs.map (fun j => j.start) ++ jobs.map (fun j => j.finish))).head? =
        some t0 →
      ∀ w ∈ ws, t0 ≤ w.start) := by
  simp only [find_windows] at h
  split at h
  · cases h
  · rename_i t0 rest heq
    obtain ⟨h1, h2⟩ := find_windows_aux_spec score wscore recalc_weight d _ _ _
      hd fuel jobs t0 ws jf h
    refine ⟨h2, fun t0' ht0' w hw => ?_⟩
    rw [heq] at ht0'
    injection ht0' with ht0'
    rw [← ht0']
    exact h1 w hw

/-- Witness for the amended C3 on a concrete two-job build. -/
theorem claim_c3_witness :
    List.Pairwise win_disjoint [Window.mk 6 9 0, Window.mk 0 6 1, Window.mk 9 10 0] :=
  (claim_c3_find_windows_disjoint enhanced_score hybrid_window_score 1 1 10 c3_jobs
    [Window.mk 6 9 0, Window.mk 0 6 1, Window.mk 9 10 0]
    [Job.mk 0 10 0 (1/100), Job.mk 0 10 1 (1/100)]
    (by norm_num) (by with_unfolding_all decide)).1

/-- Counterexample to C3 as stated: on jobs (0,10,0,3) and (0,10,1,6) with
min_window_size 1 the loop emits (6,9,0) before (0,6,1), so the output is not
in non-decreasing time order; after that first batch the cursor is 9 (the
maximum emitted finish), not 6 (the finish of the last emitted window). -/
theorem claim_c3_counterexample :
    find_windows enhanced_score hybrid_window_score 1 1 10 c3_jobs =
      some ([Window.mk 6 9 0, Window.mk 0 6 1, Window.mk 9 10 0],
            [Job.mk 0 10 0 (1/100), Job.mk 0 10 1 (1/100)]) ∧
    ¬ List.Pairwise (fun a b : Window => a.start ≤ b.start)
        [Window.mk 6 9 0, Window.mk 0 6 1, Window.mk 9 10 0] ∧
    next_cursor 0 10 [Window.mk 6 9 0, Window.mk 0 6 1] = 9 ∧
    (Window.mk 0 6 1).finish ≠ 9 := by
  refine ⟨?_, ?_, ?_, ?_⟩ <;> with_unfolding_all decide

/-- C4 (amended): in a fallback iteration (at most one candidate window) the
sub-interval handed to the distributor is [time, max(time + min_window_size,
next_timestamp)) — not [time, next_timestamp) — and the cursor then advances
to the maximum emitted sub-window finish (not the last emitted one), or to
that sub-interval end when the distributor emitted nothing. -/
theorem claim_c4_fallback_interval_and_cursor (score : Interval → Job → ℚ → ℚ)
    (d time nt fin : ℚ) (ts : List ℚ) (parts : List ℕ) (jobs : List Job)
    (batch : List Window)
    (hd : 0 < d)
    (hnt : min_greater time ts = some nt)
    (hfin : subinterval_finish d time ts = some fin)
    (hsplit : split_subinterval_by_windows score d parts (Interval.mk time fin) jobs =
      some batch) :
    fin = max (time + d) nt ∧
    (batch = [] → next_cursor time fin batch = fin) ∧
    (batch ≠ [] →
      time < next_cursor time fin batch ∧
      (∀ w ∈ batch, w.finish ≤ next_cursor time fin batch) ∧
      (∃ w ∈ batch, w.finish = next_cursor time fin batch)) := by
  obtain ⟨nt', hnt', hfeq⟩ := subinterval_finish_char hfin
  rw [hnt] at hnt'
  injection hnt' with hnt'
  subst hnt'
  have htfin : time ≤ fin := by
    have := le_max_left (time + d) nt
    rw [hfeq]; linarith
  obtain ⟨hb1, _hb2⟩ := split_subinterval_spec score d parts
    (Interval.mk time fin) jobs batch hsplit htfin
  refine ⟨hfeq, ?_, ?_⟩
  · intro hempty
    subst hempty
    simp [next_cursor]
  · intro hne
    obtain ⟨w0, hw0⟩ := List.exists_mem_of_ne_nil batch hne
    have hw0f : time < w0.finish := by
      obtain ⟨u1, _u2, u3⟩ := hb1 w0 hw0
      unfold Window.length at u3
      have : time ≤ w0.start := u1
      linarith
    have hgt : time < batch.foldl (fun a x => max a x.finish) time :=
      lt_of_lt_of_le hw0f (foldl_max_mem batch time w0 hw0)
    have hne2 : ¬ (batch.foldl (fun a x => max a x.finish) time = time) := by
      intro he
      rw [he] at hgt
      exact lt_irrefl time hgt
    have hnc : next_cursor time fin batch = batch.foldl (fun a x => max a x.finish) time := by
      simp only [next_cursor]
      rw [if_neg hne2]
    refine ⟨by rw [hnc]; exact hgt, fun w hw => by rw [hnc]; exact foldl_max_mem batch time w hw, ?_⟩
    rcases foldl_max_cases batch time with hcase | ⟨w, hw, hweq⟩
    · exact absurd hcase hne2
    · exact ⟨w, hw, by rw [hnc, hweq]⟩

/-- Witness for the amended C4 on the concrete fallback iteration of the
c4_jobs build. -/
theorem claim_c4_witness :
    (10:ℚ) = max (0 + 10) 5 ∧
    ∃ w ∈ [Window.mk 0 10 1], w.finish = next_cursor 0 10 [Window.mk 0 10 1] := by
  have h := claim_c4_fallback_interval_and_cursor enhanced_score 10 0 5 10
    [0, 5, 30] [0, 1] c4_jobs [Window.mk 0 10 1]
    (by norm_num) (by with_unfolding_all decide) (by with_unfolding_all decide)
    (by with_unfolding_all decide)
  exact ⟨h.1, (h.2.2 (by simp)).2.2⟩

/-- Counterexample to C4 as stated: with jobs (0,5,0,2) and (0,30,1,10) and
min_window_size 10, at the initial cursor 0 exactly one candidate window
exists, the smallest timestamp above the cursor is 5, yet the sub-interval
handed to the distributor ends at max(0 + 10, 5) = 10, not at 5. -/
theorem claim_c4_counterexample :
    (get_acceptable_following_windows 0 c4_jobs 10).length = 1 ∧
    (rat_set (c4_jobs.map (fun j => j.start) ++ c4_jobs.map (fun j => j.finish))).head? =
      some 0 ∧
    min_greater 0
      (rat_set (c4_jobs.map (fun j => j.start) ++ c4_jobs.map (fun j => j.finish))) =
      some 5 ∧
    subinterval_finish 10 0
      (rat_set (c4_jobs.map (fun j => j.start) ++ c4_jobs.map (fun j => j.finish))) =
      some 10 ∧
    Interval.mk 0 10 ≠ Interval.mk 0 5 := by
  refine ⟨?_, ?_, ?_, ?_, ?_⟩ <;> with_unfolding_all decide

/-! ## Network and rate -/

theorem map_sum_eq_range_sum (g : Job → ℚ) :
    ∀ l : List Job, (l.map g).sum =
      ∑ i ∈ Finset.range l.length, g (l.getD i (Job.mk 0 0 0 0))
  | [] => by simp
  | j :: t => by
    simp only [List.map_cons, List.sum_cons, List.length_cons]
    rw [Finset.sum_range_succ']
    simp only [List.getD_cons_succ, List.getD_cons_zero]
    rw [← map_sum_eq_range_sum g t]
    ring

/-- C2: the feasibility network has one Source→Job edge per original job
carrying that job's original duration as capacity, one Window→Sink edge per
discovered window carrying the window length as capacity, a Job→Window edge
exactly for the pairs where the job's directive interval contains the window
and the partitions are equal, and total_duration equal to the sum of the
original durations. -/
theorem claim_c2_network_structure (jobs : List Job) (windows : List Window) :
    ((build_network jobs windows).source_edges.length = jobs.length ∧
     ∀ i : ℕ, (build_network jobs windows).source_edges[i]? =
       (jobs[i]?).map (fun j => (i, j.duration))) ∧
    ((build_network jobs windows).sink_edges.length = windows.length ∧
     ∀ i : ℕ, (build_network jobs windows).sink_edges[i]? =
       (windows[i]?).map (fun w => (i, Window.length w))) ∧
    (∀ i j : ℕ, (i, j) ∈ (build_network jobs windows).job_window_edges ↔
      ∃ jb w, jobs[i]? = some jb ∧ windows[j]? = some w ∧
        Interval.contains (Job.toInterval jb) (Window.toInterval w) = true ∧
        jb.partition = w.partition) ∧
    (build_network jobs windows).total_duration =
      (jobs.map (fun j => j.duration)).sum := by
  refine ⟨⟨by simp [build_network], fun i => ?_⟩,
          ⟨by simp [build_network], fun i => ?_⟩, fun i j => ?_, rfl⟩
  · show ((jobs.enum.map (fun p => (p.fst, p.snd.duration)))[i]?) = _
    rw [List.getElem?_map, List.getElem?_enum]
    cases jobs[i]? <;> rfl
  · show ((windows.enum.map (fun p => (p.fst, Window.length p.snd)))[i]?) = _
    rw [List.getElem?_map, List.getElem?_enum]
    cases windows[i]? <;> rfl
  · constructor
    · intro hmem
      simp only [build_network, List.mem_flatMap, List.mem_filterMap] at hmem
      obtain ⟨pj, hpj, pw, hpw, hif⟩ := hmem
      rw [List.mem_enum_iff_getElem?] at hpj hpw
      split at hif
      · injection hif with hif
        injection hif with e1 e2
        subst e1
        subst e2
        rename_i hcond
        rw [Bool.and_eq_true, beq_iff_eq] at hcond
        exact ⟨pj.2, pw.2, hpj, hpw, hcond.1, hcond.2⟩
      · cases hif
    · rintro ⟨jb, w, hjb, hw, hcont, hpart⟩
      simp only [build_network, List.mem_flatMap, List.mem_filterMap]
      refine ⟨(i, jb), ?_, (j, w), ?_, ?_⟩
      · rw [List.mem_enum_iff_getElem?]; exact hjb
      · rw [List.mem_enum_iff_getElem?]; exact hw
      · have hcond : (Interval.contains (Job.toInterval jb) (Window.toInterval w) &&
            (jb.partition == w.partition)) = true := by
          rw [Bool.and_eq_true, beq_iff_eq]
          exact ⟨hcont, hpart⟩
        rw [if_pos hcond]

/-- C1: rate is exactly 1 + (F - D)/D; with positive total duration D it
equals 1 iff F = D; for the value F of any feasible flow in the built network
the rate never exceeds 1; and exists() holds iff rate >= 0.99. -/
theorem claim_c1_rate_and_exists (jobs : List Job) (windows : List Window)
    (f : ℕ → ℕ → ℚ)
    (hf : IsFlow jobs windows f)
    (hD : 0 < (build_network jobs windows).total_duration) :
    rate (flow_value jobs windows f) ((build_network jobs windows).total_duration) =
      1 + (flow_value jobs windows f - (build_network jobs windows).total_duration) /
        (build_network jobs windows).total_duration ∧
    (rate (flow_value jobs windows f) ((build_network jobs windows).total_duration) = 1 ↔
      flow_value jobs windows f = (build_network jobs windows).total_duration) ∧
    rate (flow_value jobs windows f) ((build_network jobs windows).total_duration) ≤ 1 ∧
    (schedule_exists (flow_value jobs windows f)
        ((build_network jobs windows).total_duration) = true ↔
      99 / 100 ≤ rate (flow_value jobs windows f)
        ((build_network jobs windows).total_duration)) := by
  have hFD : flow_value jobs windows f ≤ (build_network jobs windows).total_duration := by
    obtain ⟨_h0, _hsupp, hcap, _hsink⟩ := hf
    have h1 : flow_value jobs windows f ≤
        ∑ i ∈ Finset.range jobs.length, (jobs.getD i (Job.mk 0 0 0 0)).duration := by
      unfold flow_value
      apply Finset.sum_le_sum
      intro i hi
      rw [Finset.mem_range] at hi
      have hc := hcap i hi
      rw [List.get_eq_getElem] at hc
      rw [List.getD_eq_getElem _ _ hi]
      exact hc
    have h2 : (build_network jobs windows).total_duration =
        ∑ i ∈ Finset.range jobs.length, (jobs.getD i (Job.mk 0 0 0 0)).duration := by
      show (jobs.map (fun j => j.duration)).sum = _
      rw [map_sum_eq_range_sum]
    linarith
  have hDne : (build_network jobs windows).total_duration ≠ 0 := ne_of_gt hD
  refine ⟨rfl, ?_, ?_, ?_⟩
  · unfold rate
    constructor
    · intro h
      have h2 : (flow_value jobs windows f - (build_network jobs windows).total_duration) /
          (build_network jobs windows).total_duration = 0 := by linarith
      rcases div_eq_zero_iff.mp h2 with h3 | h3
      · have := sub_eq_zero.mp h3
        linarith
      · exact absurd h3 hDne
    · intro h
      rw [h]
      simp
  · unfold rate
    have : (flow_value jobs windows f - (build_network jobs windows).total_duration) /
        (build_network jobs windows).total_duration ≤ 0 :=
      div_nonpos_iff.mpr (Or.inr ⟨by linarith, le_of_lt hD⟩)
    linarith
  · unfold schedule_exists
    rw [decide_eq_true_iff]

/-- Witness for C1 at a one-job one-window network with the zero flow. -/
theorem claim_c1_witness :
    rate (flow_value [Job.mk 0 1 0 1] [Window.mk 0 1 0] (fun _ _ => 0))
      ((build_network [Job.mk 0 1 0 1] [Window.mk 0 1 0]).total_duration) ≤ 1 := by
  have hf : IsFlow [Job.mk 0 1 0 1] [Window.mk 0 1 0] (fun _ _ => 0) := by
    refine ⟨fun i j => le_refl 0, fun i j _ => rfl, ?_, ?_⟩
    · intro i h
      have hi0 : i = 0 := Nat.lt_one_iff.mp h
      subst hi0
      simp only [Finset.sum_const_zero]
      norm_num [List.get]
    · intro j h
      have hj0 : j = 0 := Nat.lt_one_iff.mp h
      subst hj0
      simp only [Finset.sum_const_zero]
      norm_num [List.get, Window.length]
  exact (claim_c1_rate_and_exists [Job.mk 0 1 0 1] [Window.mk 0 1 0]
    (fun _ _ => 0) hf (by with_unfolding_all decide)).2.2.1

/-- C5: after each emitted window the recalculation step sets every
working-copy job's duration to max(0.01, duration - recalc_jobs * delta),
with delta = max(0, window_score) / (total positive window score) *
window.length; and whenever that total is below 1e-6 the job list is left
entirely unchanged (no error is raised). -/
theorem claim_c5_recalc_jobs (wscore : Window → Job → ℚ → ℚ)
    (recalc_weight : ℚ) (window : Window) (time : ℚ) (jobs : List Job)
    (jb : Job) (i : ℕ) (hi : jobs[i]? = some jb) :
    ((1 / 1000000 : ℚ) ≤ (jobs.map (fun job => max 0 (wscore window job time))).sum →
      (recalc_jobs wscore recalc_weight window time jobs)[i]? =
        some { jb with
          duration :=
            max (1 / 100)
              (jb.duration - recalc_weight *
                (max 0 (wscore window jb time) /
                  (jobs.map (fun job => max 0 (wscore window job time))).sum *
                  Window.length window)) }) ∧
    ((jobs.map (fun job => max 0 (wscore window job time))).sum < 1 / 1000000 →
      recalc_jobs wscore recalc_weight window time jobs = jobs) := by
  constructor
  · intro hge
    simp only [recalc_jobs]
    rw [if_neg (not_lt.mpr hge)]
    have hsc : ((jobs.map (fun job => max 0 (wscore window job time))).map
        (fun score => score / (jobs.map (fun job => max 0 (wscore window job time))).sum *
          Window.length window))[i]? =
        some (max 0 (wscore window jb time) /
          (jobs.map (fun job => max 0 (wscore window job time))).sum *
          Window.length window) := by
      rw [List.getElem?_map, List.getElem?_map, hi]
      rfl
    have hzip : (jobs.zip ((jobs.map (fun job => max 0 (wscore window job time))).map
        (fun score => score / (jobs.map (fun job => max 0 (wscore window job time))).sum *
          Window.length window)))[i]? =
        some (jb, max 0 (wscore window jb time) /
          (jobs.map (fun job => max 0 (wscore window job time))).sum *
          Window.length window) :=
      List.getElem?_zip_eq_some.mpr ⟨hi, hsc⟩
    rw [List.getElem?_map, hzip]
    rfl
  · intro hlt
    simp only [recalc_jobs]
    rw [if_pos hlt]

/-- Witness for C5 on a one-job list with a constant window score. -/
theorem claim_c5_witness :
    (recalc_jobs (fun _ _ _ => 1) 1 (Window.mk 0 2 0) 0 [Job.mk 0 2 0 1])[0]? =
      some (Job.mk 0 2 0 (1/100)) := by
  have h := (claim_c5_recalc_jobs (fun _ _ _ => 1) 1 (Window.mk 0 2 0) 0
    [Job.mk 0 2 0 1] (Job.mk 0 2 0 1) 0 (by rfl)).1 (by norm_num)
  rw [h]
  with_unfolding_all decide

/-- C8: over the ten-job unit-test fixture, get_acceptable_following_windows
with time=19 and min_window_size=5 yields exactly the candidate pairs
(19,24), (19,25) and (20,25), each exactly once. -/
theorem claim_c8_candidates_concrete :
    List.Perm (get_acceptable_following_windows 19 fixture_jobs 5)
      [((19:ℚ), (24:ℚ)), (19, 25), (20, 25)] ∧
    (get_acceptable_following_windows 19 fixture_jobs 5).Nodup := by
  have h : get_acceptable_following_windows 19 fixture_jobs 5 =
      [((19:ℚ), (24:ℚ)), (19, 25), (20, 25)] := by with_unfolding_all decide
  rw [h]
  exact ⟨List.Perm.refl _, by with_unfolding_all decide⟩

/-- C9: build never mutates the caller's jobs: the result keeps the input
list as initial_jobs, and the network's Source→Job capacities are the
original input durations — not those of the working copy shrunk during
discovery. -/
theorem claim_c9_build_frame (score : Interval → Job → ℚ → ℚ)
    (wscore : Window → Job → ℚ → ℚ) (recalc_weight d : ℚ) (fuel : ℕ)
    (jobs : List Job) (r : HybridScheduleResult)
    (h : build score wscore recalc_weight d fuel jobs = some r) :
    r.initial_jobs = jobs ∧
    (∀ i : ℕ, r.network.source_edges[i]? =
      (jobs[i]?).map (fun j => (i, j.duration))) ∧
    r.network.total_duration = (jobs.map (fun j => j.duration)).sum := by
  simp only [build] at h
  split at h
  · cases h
  · rename_i p _heq
    injection h with h
    subst h
    refine ⟨rfl, fun i => ?_, rfl⟩
    show ((jobs.enum.map (fun q => (q.fst, q.snd.duration)))[i]?) = _
    rw [List.getElem?_map, List.getElem?_enum]
    cases jobs[i]? <;> rfl

/-- Witness for C9 on a concrete build whose working copy does get shrunk. -/
theorem claim_c9_witness :
    (HybridScheduleResult.mk c4_jobs [Job.mk 0 5 0 2, Job.mk 0 30 1 (1/100)]
      [Window.mk 0 10 1, Window.mk 20 30 0, Window.mk 10 20 1]
      (build_network c4_jobs
        [Window.mk 0 10 1, Window.mk 20 30 0, Window.mk 10 20 1])).network.total_duration =
      (c4_jobs.map (fun j => j.duration)).sum :=
  (claim_c9_build_frame enhanced_score hybrid_window_score 1 10 10 c4_jobs _
    (by with_unfolding_all decide)).2.2

/-- C10: build on an empty job list does not return normally: window
discovery reads the first element of the empty timestamp list, so the error
branch is taken; a non-empty job list is an unstated precondition of build. -/
theorem claim_c10_build_empty (score : Interval → Job → ℚ → ℚ)
    (wscore : Window → Job → ℚ → ℚ) (recalc_weight d : ℚ) (fuel : ℕ) :
    build score wscore recalc_weight d fuel [] = none := rfl

end Scheduler
